import Mathlib

/-!
Verification of a persistent lazy segment tree (`src/seg_tree.rs`).

The Rust code is a persistent segment tree parameterized over a value
semigroup/monoid `V` and a modifier monoid `M` acting on `V`.  We embed the
data model and the three algorithms (`build`, `query`, `apply`) shallowly:
machine `usize` indices become `Nat`, `Range<usize>` becomes a pair of `Nat`
bounds, and `Rc` sharing disappears because trees are plain inductive values.
Checked variants (`queryChecked`, `applyChecked`) model the `usize`
subtractions of the Rust code as fallible operations, so that totality (no
underflow panic) is a provable theorem rather than an artifact of `Nat`
truncated subtraction.
-/

/-- A half-open integer interval, the shallow embedding of Rust
`Range<usize>` (field `end` is renamed `stop` since `end` is a keyword). -/
structure Range where
  start : Nat
  stop : Nat
deriving DecidableEq, Repr

/-- The caller-supplied algebra: value merge/identity (`Semigroup`/`Monoid`
for `V`), modifier merge/identity, and the action of modifiers on values
(trait `Applier`).  The Rust traits are implicit dictionaries; here they are
bundled in one explicit record. -/
structure Alg (V M : Type) where
  vmerge : V → V → V
  vempty : V
  mmerge : M → M → M
  mempty : M
  apply : M → V → V

/-- The laws of spec §3: `V.merge` associative with identity `V.empty`,
`M.merge` associative with identity `M.empty` acting as no change,
`apply` distributes over value merge, and applying `merge(new, old)`
equals applying `old` first and then `new`. -/
structure Laws {V M : Type} (A : Alg V M) : Prop where
  vmerge_assoc : ∀ a b c, A.vmerge (A.vmerge a b) c = A.vmerge a (A.vmerge b c)
  vempty_vmerge : ∀ a, A.vmerge A.vempty a = a
  vmerge_vempty : ∀ a, A.vmerge a A.vempty = a
  mmerge_assoc : ∀ a b c, A.mmerge (A.mmerge a b) c = A.mmerge a (A.mmerge b c)
  mempty_mmerge : ∀ m, A.mmerge A.mempty m = m
  mmerge_mempty : ∀ m, A.mmerge m A.mempty = m
  apply_vmerge : ∀ m a b, A.apply m (A.vmerge a b) = A.vmerge (A.apply m a) (A.apply m b)
  apply_mmerge : ∀ m₁ m₂ a, A.apply (A.mmerge m₁ m₂) a = A.apply m₁ (A.apply m₂ a)
  apply_mempty : ∀ a, A.apply A.mempty a = a

/-- `enum SegTree<V, M>`: `Empty`, `Unit(V)`, or a `Branch` carrying its
size, pending modifier, cached aggregate and the two children. -/
inductive SegTree (V M : Type) where
  | empty : SegTree V M
  | unit : V → SegTree V M
  | branch (size : Nat) (modifier : M) (value : V) (left right : SegTree V M) : SegTree V M
deriving DecidableEq, Repr

namespace SegTree

variable {V M : Type}

/-- `SegTree::size`. -/
def size : SegTree V M → Nat
  | .empty => 0
  | .unit _ => 1
  | .branch s _ _ _ _ => s

/-- `SegTree::all`: the node's aggregate. -/
def all (A : Alg V M) : SegTree V M → V
  | .empty => A.vempty
  | .unit v => v
  | .branch _ _ v _ _ => v

/-- `SegTree::apply_all`: apply `m` to the top-level aggregate and compose
it (new first) into the pending modifier, without touching the children. -/
def apply_all (A : Alg V M) (t : SegTree V M) (m : M) : SegTree V M :=
  match t with
  | .empty => .empty
  | .unit v => .unit (A.apply m v)
  | .branch s mo v l r => .branch s (A.mmerge m mo) (A.apply m v) l r

/-- The `Branch` constructed by `build_inner` and by the partial case of
`apply`: size `s`, identity pending modifier, aggregate the merge of the
children's aggregates. -/
def mkBranch (A : Alg V M) (s : Nat) (l r : SegTree V M) : SegTree V M :=
  .branch s A.mempty (A.vmerge (all A l) (all A r)) l r

/-- `SegTree::build_inner`. -/
def build_inner (A : Alg V M) (offset len : Nat) (init : Nat → V) : SegTree V M :=
  match len with
  | 0 => .empty
  | 1 => .unit (init offset)
  | (n + 2) =>
    mkBranch A (n + 2)
      (build_inner A offset ((n + 2) / 2) init)
      (build_inner A (offset + (n + 2) / 2) ((n + 2) - (n + 2) / 2) init)
termination_by len
decreasing_by
  all_goals omega

/-- `SegTree::build`. -/
def build (A : Alg V M) (len : Nat) (init : Nat → V) : SegTree V M :=
  build_inner A 0 len init

/-- `SegTree::query`.  `range.contains(&0)` on `usize` is
`start ≤ 0 ∧ 0 < stop`; the full-cover test is `start ≤ 0 ∧ size ≤ stop`. -/
def query (A : Alg V M) (t : SegTree V M) (r : Range) : V :=
  match t with
  | .empty => A.vempty
  | .unit v => if r.start ≤ 0 ∧ 0 < r.stop then v else A.vempty
  | .branch s mo v l rt =>
    if r.start ≤ 0 ∧ s ≤ r.stop then v
    else
      A.apply mo
        (if r.stop ≤ s / 2 then query A l r
         else if s / 2 ≤ r.start then query A rt ⟨r.start - s / 2, r.stop - s / 2⟩
         else A.vmerge (query A l ⟨r.start, s / 2⟩) (query A rt ⟨0, r.stop - s / 2⟩))

/-- Number of nodes; termination measure for `apply`, which recurses on
`apply_all` images of the children rather than on the children themselves. -/
def nodes : SegTree V M → Nat
  | .empty => 1
  | .unit _ => 1
  | .branch _ _ _ l r => nodes l + nodes r + 1

theorem nodes_apply_all (A : Alg V M) (t : SegTree V M) (m : M) :
    nodes (apply_all A t m) = nodes t := by
  cases t <;> rfl

/-- `SegTree::apply`: full cover updates aggregate and pending modifier in
place (lazy); otherwise push the pending modifier one level down with
`apply_all`, recurse into the children the range touches (with clamped
bounds), and rebuild with an identity pending modifier. -/
def apply (A : Alg V M) (t : SegTree V M) (r : Range) (m : M) : SegTree V M :=
  match t with
  | .empty => .empty
  | .unit v => if r.start ≤ 0 ∧ 0 < r.stop then .unit (A.apply m v) else .unit v
  | .branch s mo v l rt =>
    if r.start ≤ 0 ∧ s ≤ r.stop then
      .branch s (A.mmerge m mo) (A.apply m v) l rt
    else
      mkBranch A s
        (if r.start < s / 2 then
           apply A (apply_all A l mo) ⟨r.start, min r.stop (s / 2)⟩ m
         else apply_all A l mo)
        (if s / 2 < r.stop then
           apply A (apply_all A rt mo) ⟨max r.start (s / 2) - s / 2, r.stop - s / 2⟩ m
         else apply_all A rt mo)
termination_by nodes t
decreasing_by
  all_goals simp [nodes_apply_all, nodes]; omega

/-- Checked `usize` subtraction: Rust `a - b` on `usize` panics (in debug
builds) when `b > a`, so we model each subtraction site as fallible. -/
def csub (a b : Nat) : Option Nat :=
  if b ≤ a then some (a - b) else none

/-- `SegTree::query` with every `usize` subtraction checked: a `none`
result would correspond to an underflow panic in the Rust code. -/
def queryChecked (A : Alg V M) (t : SegTree V M) (r : Range) : Option V :=
  match t with
  | .empty => some A.vempty
  | .unit v => some (if r.start ≤ 0 ∧ 0 < r.stop then v else A.vempty)
  | .branch s mo v l rt =>
    if r.start ≤ 0 ∧ s ≤ r.stop then some v
    else
      Option.map (A.apply mo)
        (if r.stop ≤ s / 2 then queryChecked A l r
         else if s / 2 ≤ r.start then
           (csub r.start (s / 2)).bind fun a =>
             (csub r.stop (s / 2)).bind fun b =>
               queryChecked A rt ⟨a, b⟩
         else
           (csub r.stop (s / 2)).bind fun b =>
             (queryChecked A l ⟨r.start, s / 2⟩).bind fun x =>
               Option.map (fun y => A.vmerge x y) (queryChecked A rt ⟨0, b⟩))

/-- `SegTree::apply` with every `usize` subtraction checked. -/
def applyChecked (A : Alg V M) (t : SegTree V M) (r : Range) (m : M) :
    Option (SegTree V M) :=
  match t with
  | .empty => some .empty
  | .unit v => some (if r.start ≤ 0 ∧ 0 < r.stop then .unit (A.apply m v) else .unit v)
  | .branch s mo v l rt =>
    if r.start ≤ 0 ∧ s ≤ r.stop then
      some (.branch s (A.mmerge m mo) (A.apply m v) l rt)
    else
      (if r.start < s / 2 then
         applyChecked A (apply_all A l mo) ⟨r.start, min r.stop (s / 2)⟩ m
       else some (apply_all A l mo)).bind fun nl =>
      Option.map (fun nr => mkBranch A s nl nr)
        (if s / 2 < r.stop then
           (csub (max r.start (s / 2)) (s / 2)).bind fun a =>
             (csub r.stop (s / 2)).bind fun b =>
               applyChecked A (apply_all A rt mo) ⟨a, b⟩ m
         else some (apply_all A rt mo))
termination_by nodes t
decreasing_by
  all_goals simp [nodes_apply_all, nodes]; omega

end SegTree

/-! ## Abstract model

`denote` maps a tree to the list of per-position values it represents,
pushing every pending modifier all the way down; `WF` is the structural
and aggregate invariant of trees reachable by `build` and `apply`;
`vfold` folds `V.merge` over a list; `sliceRange xs a b` is the sub-list of
positions in the half-open interval; `applyIn m a b` applies `m` at
exactly the positions in the interval.  These are the reference
("first principles") definitions the spec's claims compare against. -/

/-- Fold `merge` over a list of values, starting from the identity. -/
def vfold {V M : Type} (A : Alg V M) (xs : List V) : V :=
  xs.foldr A.vmerge A.vempty

/-- The positions of `xs` lying in the half-open interval from `a` to `b`. -/
def sliceRange {α : Type} (xs : List α) (a b : Nat) : List α :=
  (xs.take b).drop a

/-- Apply `m` to exactly the elements whose position lies in the half-open
interval from `a` to `b` (positions counted from 0). -/
def applyIn {V M : Type} (A : Alg V M) (m : M) : Nat → Nat → List V → List V
  | _, _, [] => []
  | a, b, x :: xs =>
    (if a = 0 ∧ 0 < b then A.apply m x else x) :: applyIn A m (a - 1) (b - 1) xs

namespace SegTree

variable {V M : Type}

/-- The list of per-position values a tree represents: a Branch's pending
modifier acts on every position below it. -/
def denote (A : Alg V M) : SegTree V M → List V
  | .empty => []
  | .unit v => [v]
  | .branch _ mo _ l r => (denote A l ++ denote A r).map (A.apply mo)

/-- Well-formedness of reachable trees: Branch sizes add up with the left
half getting `size / 2`, Branch size is at least 2, and the cached
aggregate is the pending modifier applied to the merge of the children's
aggregates. -/
def WF (A : Alg V M) : SegTree V M → Prop
  | .empty => True
  | .unit _ => True
  | .branch s mo v l r =>
    s = size l + size r ∧ size l = s / 2 ∧ 2 ≤ s ∧
      v = A.apply mo (A.vmerge (all A l) (all A r)) ∧ WF A l ∧ WF A r

/-- The purely structural size invariants of spec §3. -/
def SizeInv : SegTree V M → Prop
  | .empty => True
  | .unit _ => True
  | .branch s _ _ l r =>
    s = size l + size r ∧ size l = s / 2 ∧ 2 ≤ s ∧ SizeInv l ∧ SizeInv r

/-- Every Branch in the tree carries an identity pending modifier. -/
def AllMempty (A : Alg V M) : SegTree V M → Prop
  | .empty => True
  | .unit _ => True
  | .branch _ mo _ l r => mo = A.mempty ∧ AllMempty A l ∧ AllMempty A r

/-- Modelled from the spec: the Query algorithm of §4.4 exactly as worded,
which applies the node's pending modifier to the recursive result only in
the straddling case, not when the range lies entirely within one child.
(The source `SegTree::query` applies the modifier in all three partial
cases; this definition exists to compare the spec's wording against it.) -/
def querySpec (A : Alg V M) (t : SegTree V M) (r : Range) : V :=
  match t with
  | .empty => A.vempty
  | .unit v => if r.start ≤ 0 ∧ 0 < r.stop then v else A.vempty
  | .branch s mo v l rt =>
    if r.start ≤ 0 ∧ s ≤ r.stop then v
    else
      if r.stop ≤ s / 2 then querySpec A l r
      else if s / 2 ≤ r.start then querySpec A rt ⟨r.start - s / 2, r.stop - s / 2⟩
      else
        A.apply mo
          (A.vmerge (querySpec A l ⟨r.start, s / 2⟩) (querySpec A rt ⟨0, r.stop - s / 2⟩))

end SegTree

/-! ## Concrete algebras

`sumScaleAlg` (sums under multiplicative scaling) satisfies all of §3's
laws and additionally maps the value identity to itself under every
modifier.  `maxAddAlg` (maxima under additive shifts) satisfies all of
§3's laws but its modifiers move the value identity: it witnesses that
the §3 laws do not force `apply m empty = empty`. -/

/-- Values: natural numbers under addition; modifiers: natural numbers
acting by multiplication, composed by multiplication. -/
def sumScaleAlg : Alg Nat Nat :=
  { vmerge := fun a b => a + b
    vempty := 0
    mmerge := fun a b => a * b
    mempty := 1
    apply := fun m v => m * v }

/-- Values: natural numbers under `max` with identity 0; modifiers:
natural numbers acting by addition, composed by addition. -/
def maxAddAlg : Alg Nat Nat :=
  { vmerge := fun a b => max a b
    vempty := 0
    mmerge := fun a b => a + b
    mempty := 0
    apply := fun m v => v + m }

theorem sumScaleAlg_laws : Laws sumScaleAlg := by
  constructor <;> intros <;> simp [sumScaleAlg] <;> ring

theorem sumScaleAlg_apply_vempty : ∀ m, sumScaleAlg.apply m sumScaleAlg.vempty = sumScaleAlg.vempty := by
  intro m; simp [sumScaleAlg]

theorem maxAddAlg_laws : Laws maxAddAlg := by
  constructor <;> intros <;> simp [maxAddAlg] <;> omega

/-! ## Unfolding and size lemmas -/

namespace SegTree

variable {V M : Type}

theorem apply_empty (A : Alg V M) (r : Range) (m : M) :
    apply A .empty r m = .empty := by
  rw [apply]

theorem apply_unit (A : Alg V M) (v : V) (r : Range) (m : M) :
    apply A (.unit v) r m =
      if r.start ≤ 0 ∧ 0 < r.stop then .unit (A.apply m v) else .unit v := by
  rw [apply]

theorem apply_branch (A : Alg V M) (s : Nat) (mo : M) (v : V) (l rt : SegTree V M)
    (r : Range) (m : M) :
    apply A (.branch s mo v l rt) r m =
      if r.start ≤ 0 ∧ s ≤ r.stop then
        .branch s (A.mmerge m mo) (A.apply m v) l rt
      else
        mkBranch A s
          (if r.start < s / 2 then
             apply A (apply_all A l mo) ⟨r.start, min r.stop (s / 2)⟩ m
           else apply_all A l mo)
          (if s / 2 < r.stop then
             apply A (apply_all A rt mo) ⟨max r.start (s / 2) - s / 2, r.stop - s / 2⟩ m
           else apply_all A rt mo) := by
  rw [apply]

theorem build_inner_zero (A : Alg V M) (offset : Nat) (init : Nat → V) :
    build_inner A offset 0 init = .empty := by
  rw [build_inner]

theorem build_inner_one (A : Alg V M) (offset : Nat) (init : Nat → V) :
    build_inner A offset 1 init = .unit (init offset) := by
  rw [build_inner]

theorem build_inner_ge_two (A : Alg V M) (offset n : Nat) (init : Nat → V) :
    build_inner A offset (n + 2) init =
      mkBranch A (n + 2)
        (build_inner A offset ((n + 2) / 2) init)
        (build_inner A (offset + (n + 2) / 2) ((n + 2) - (n + 2) / 2) init) := by
  rw [build_inner]

theorem size_mkBranch (A : Alg V M) (s : Nat) (l r : SegTree V M) :
    size (mkBranch A s l r) = s := rfl

theorem all_mkBranch (A : Alg V M) (s : Nat) (l r : SegTree V M) :
    all A (mkBranch A s l r) = A.vmerge (all A l) (all A r) := rfl

theorem size_apply_all (A : Alg V M) (t : SegTree V M) (m : M) :
    size (apply_all A t m) = size t := by
  cases t <;> rfl

theorem size_apply (A : Alg V M) (t : SegTree V M) (r : Range) (m : M) :
    size (apply A t r m) = size t := by
  cases t with
  | empty => rw [apply_empty]
  | unit v => rw [apply_unit]; split <;> rfl
  | branch s mo v l rt => rw [apply_branch]; split <;> rfl

theorem size_build_inner (A : Alg V M) (offset len : Nat) (init : Nat → V) :
    size (build_inner A offset len init) = len := by
  match len with
  | 0 => rw [build_inner_zero]; rfl
  | 1 => rw [build_inner_one]; rfl
  | (n + 2) => rw [build_inner_ge_two]; rfl

theorem size_build (A : Alg V M) (len : Nat) (init : Nat → V) :
    size (build A len init) = len :=
  size_build_inner A 0 len init

end SegTree

/-! ## `vfold` and `applyIn` lemmas -/

theorem vfold_nil {V M : Type} (A : Alg V M) : vfold A [] = A.vempty := rfl

theorem vfold_cons {V M : Type} (A : Alg V M) (x : V) (xs : List V) :
    vfold A (x :: xs) = A.vmerge x (vfold A xs) := rfl

theorem vfold_append {V M : Type} (A : Alg V M)
    (hassoc : ∀ a b c, A.vmerge (A.vmerge a b) c = A.vmerge a (A.vmerge b c))
    (hidl : ∀ a, A.vmerge A.vempty a = a) (xs ys : List V) :
    vfold A (xs ++ ys) = A.vmerge (vfold A xs) (vfold A ys) := by
  induction xs with
  | nil => simp [vfold_nil, hidl]
  | cons x xs ih => simp [vfold_cons, ih, hassoc]

theorem vfold_map_apply {V M : Type} (A : Alg V M) (m : M)
    (hdist : ∀ a b, A.apply m (A.vmerge a b) = A.vmerge (A.apply m a) (A.apply m b))
    (hempty : A.apply m A.vempty = A.vempty) (xs : List V) :
    vfold A (xs.map (A.apply m)) = A.apply m (vfold A xs) := by
  induction xs with
  | nil => simp [vfold_nil, hempty]
  | cons x xs ih => simp [vfold_cons, ih, hdist]

theorem applyIn_nil {V M : Type} (A : Alg V M) (m : M) (a b : Nat) :
    applyIn A m a b [] = [] := rfl

theorem applyIn_cons {V M : Type} (A : Alg V M) (m : M) (a b : Nat) (x : V) (xs : List V) :
    applyIn A m a b (x :: xs) =
      (if a = 0 ∧ 0 < b then A.apply m x else x) :: applyIn A m (a - 1) (b - 1) xs := rfl

theorem applyIn_append {V M : Type} (A : Alg V M) (m : M) (xs ys : List V) :
    ∀ a b, applyIn A m a b (xs ++ ys) =
      applyIn A m a b xs ++ applyIn A m (a - xs.length) (b - xs.length) ys := by
  induction xs with
  | nil => intro a b; simp [applyIn_nil]
  | cons x xs ih =>
    intro a b
    simp only [List.cons_append, applyIn_cons, ih (a - 1) (b - 1), List.length_cons]
    have h1 : a - 1 - xs.length = a - (xs.length + 1) := by omega
    have h2 : b - 1 - xs.length = b - (xs.length + 1) := by omega
    rw [h1, h2]

theorem applyIn_length_le {V M : Type} (A : Alg V M) (m : M) (xs : List V) :
    ∀ a b, xs.length ≤ a → applyIn A m a b xs = xs := by
  induction xs with
  | nil => intro a b _; rfl
  | cons x xs ih =>
    intro a b h
    simp only [List.length_cons] at h
    rw [applyIn_cons, if_neg (by omega), ih (a - 1) (b - 1) (by omega)]

theorem applyIn_stop_le {V M : Type} (A : Alg V M) (m : M) (xs : List V) :
    ∀ a b, b ≤ a → applyIn A m a b xs = xs := by
  induction xs with
  | nil => intro a b _; rfl
  | cons x xs ih =>
    intro a b h
    rw [applyIn_cons, if_neg (by omega), ih (a - 1) (b - 1) (by omega)]

theorem applyIn_min_length {V M : Type} (A : Alg V M) (m : M) (xs : List V) :
    ∀ a b, applyIn A m a (min b xs.length) xs = applyIn A m a b xs := by
  induction xs with
  | nil => intro a b; rfl
  | cons x xs ih =>
    intro a b
    rw [applyIn_cons, applyIn_cons]
    have hcond : (a = 0 ∧ 0 < min b (x :: xs).length) ↔ (a = 0 ∧ 0 < b) := by
      simp only [List.length_cons]; omega
    rw [if_congr hcond rfl rfl]
    congr 1
    have : min b (x :: xs).length - 1 = min (b - 1) xs.length := by
      simp only [List.length_cons]; omega
    rw [this, ih (a - 1) (b - 1)]

theorem applyIn_full {V M : Type} (A : Alg V M) (m : M) (xs : List V) :
    ∀ b, xs.length ≤ b → applyIn A m 0 b xs = xs.map (A.apply m) := by
  induction xs with
  | nil => intro b _; rfl
  | cons x xs ih =>
    intro b h
    simp only [List.length_cons] at h
    rw [applyIn_cons, if_pos ⟨rfl, by omega⟩, List.map_cons]
    congr 1
    exact ih (b - 1) (by omega)

theorem applyIn_mempty {V M : Type} (A : Alg V M)
    (h : ∀ a, A.apply A.mempty a = a) (xs : List V) :
    ∀ a b, applyIn A A.mempty a b xs = xs := by
  induction xs with
  | nil => intro a b; rfl
  | cons x xs ih =>
    intro a b
    rw [applyIn_cons, ih (a - 1) (b - 1)]
    split <;> simp [h]

theorem map_apply_mempty {V M : Type} (A : Alg V M)
    (h : ∀ a, A.apply A.mempty a = a) (xs : List V) :
    xs.map (A.apply A.mempty) = xs := by
  induction xs with
  | nil => rfl
  | cons x xs ih => simp [ih, h]

/-! ## `denote` and `WF` lemmas -/

namespace SegTree

variable {V M : Type}

theorem denote_mkBranch (A : Alg V M) (h : ∀ a, A.apply A.mempty a = a)
    (s : Nat) (l r : SegTree V M) :
    denote A (mkBranch A s l r) = denote A l ++ denote A r := by
  simp only [mkBranch, denote]
  exact map_apply_mempty A h _

theorem denote_apply_all (A : Alg V M)
    (hcomp : ∀ m₁ m₂ a, A.apply (A.mmerge m₁ m₂) a = A.apply m₁ (A.apply m₂ a))
    (t : SegTree V M) (m : M) :
    denote A (apply_all A t m) = (denote A t).map (A.apply m) := by
  cases t with
  | empty => rfl
  | unit v => rfl
  | branch s mo v l r =>
    simp only [apply_all, denote, List.map_map]
    congr 1
    funext a
    exact hcomp m mo a

theorem length_denote (A : Alg V M) :
    ∀ t : SegTree V M, WF A t → (denote A t).length = size t := by
  intro t
  induction t with
  | empty => intro _; rfl
  | unit v => intro _; rfl
  | branch s mo v l r ihl ihr =>
    intro hW
    obtain ⟨h1, _, _, _, h5, h6⟩ := hW
    show ((denote A l ++ denote A r).map (A.apply mo)).length = s
    rw [List.length_map, List.length_append, ihl h5, ihr h6]
    omega

theorem WF_apply_all (A : Alg V M) (L : Laws A) (t : SegTree V M) (m : M)
    (hW : WF A t) : WF A (apply_all A t m) := by
  cases t with
  | empty => trivial
  | unit v => trivial
  | branch s mo v l r =>
    obtain ⟨h1, h2, h3, h4, h5, h6⟩ := hW
    exact ⟨h1, h2, h3, by rw [h4, ← L.apply_mmerge], h5, h6⟩

theorem all_denote (A : Alg V M) (L : Laws A)
    (Le : ∀ m, A.apply m A.vempty = A.vempty) :
    ∀ t : SegTree V M, WF A t → all A t = vfold A (denote A t) := by
  intro t
  induction t with
  | empty => intro _; rfl
  | unit v => intro _; rw [all, denote, vfold_cons, vfold_nil, L.vmerge_vempty]
  | branch s mo v l r ihl ihr =>
    intro hW
    obtain ⟨_, _, _, h4, h5, h6⟩ := hW
    rw [all, h4, denote,
      vfold_map_apply A mo (L.apply_vmerge mo) (Le mo),
      vfold_append A L.vmerge_assoc L.vempty_vmerge, ihl h5, ihr h6]

/-! ## Build lemmas -/

theorem WF_build_inner (A : Alg V M) (L : Laws A) (init : Nat → V) :
    ∀ len offset, WF A (build_inner A offset len init) := by
  intro len
  induction len using Nat.strong_induction_on with
  | _ len ih =>
    intro offset
    match len with
    | 0 => rw [build_inner_zero]; trivial
    | 1 => rw [build_inner_one]; trivial
    | (n + 2) =>
      rw [build_inner_ge_two]
      refine ⟨?_, ?_, by omega, ?_, ih _ (by omega) _, ih _ (by omega) _⟩
      · simp only [size_mkBranch, size_build_inner]; omega
      · simp only [size_mkBranch, size_build_inner]
      · simp only [mkBranch, L.apply_mempty]

theorem WF_build (A : Alg V M) (L : Laws A) (len : Nat) (init : Nat → V) :
    WF A (build A len init) :=
  WF_build_inner A L init len 0

theorem denote_build_inner (A : Alg V M) (L : Laws A) (init : Nat → V) :
    ∀ len offset,
      denote A (build_inner A offset len init) = (List.range' offset len).map init := by
  intro len
  induction len using Nat.strong_induction_on with
  | _ len ih =>
    intro offset
    match len with
    | 0 => rw [build_inner_zero]; rfl
    | 1 => rw [build_inner_one]; rfl
    | (n + 2) =>
      rw [build_inner_ge_two, denote_mkBranch A L.apply_mempty,
        ih _ (by omega) _, ih _ (by omega) _]
      have happ := List.range'_append offset ((n + 2) / 2) ((n + 2) - (n + 2) / 2) 1
      rw [one_mul] at happ
      have hsum : ((n + 2) - (n + 2) / 2) + (n + 2) / 2 = n + 2 := by omega
      rw [hsum] at happ
      rw [← happ, List.map_append]

theorem denote_build (A : Alg V M) (L : Laws A) (len : Nat) (init : Nat → V) :
    denote A (build A len init) = (List.range len).map init := by
  rw [build, denote_build_inner A L init len 0, List.range_eq_range']

theorem all_build_inner (A : Alg V M)
    (hassoc : ∀ a b c, A.vmerge (A.vmerge a b) c = A.vmerge a (A.vmerge b c))
    (hidl : ∀ a, A.vmerge A.vempty a = a)
    (hidr : ∀ a, A.vmerge a A.vempty = a) (init : Nat → V) :
    ∀ len offset,
      all A (build_inner A offset len init) = vfold A ((List.range' offset len).map init) := by
  intro len
  induction len using Nat.strong_induction_on with
  | _ len ih =>
    intro offset
    match len with
    | 0 => rw [build_inner_zero]; rfl
    | 1 =>
      rw [build_inner_one]
      simp only [List.range'_one, List.map_cons, List.map_nil, vfold_cons, vfold_nil]
      rw [all, hidr]
    | (n + 2) =>
      rw [build_inner_ge_two, all_mkBranch, ih _ (by omega) _, ih _ (by omega) _,
        ← vfold_append A hassoc hidl]
      have happ := List.range'_append offset ((n + 2) / 2) ((n + 2) - (n + 2) / 2) 1
      rw [one_mul] at happ
      have hsum : ((n + 2) - (n + 2) / 2) + (n + 2) / 2 = n + 2 := by omega
      rw [hsum] at happ
      rw [← happ, List.map_append]

theorem query_full_range (A : Alg V M) (t : SegTree V M) :
    query A t ⟨0, size t⟩ = all A t := by
  cases t with
  | empty => rfl
  | unit v => simp [query, all, size]
  | branch s mo v l rt => simp [query, all, size]

end SegTree

/-! ## `sliceRange` lemmas -/

theorem sliceRange_map {α β : Type} (f : α → β) (xs : List α) (a b : Nat) :
    sliceRange (xs.map f) a b = (sliceRange xs a b).map f := by
  rw [sliceRange, sliceRange, ← List.map_take, ← List.map_drop]

theorem sliceRange_all {α : Type} (xs : List α) (b : Nat) (h : xs.length ≤ b) :
    sliceRange xs 0 b = xs := by
  rw [sliceRange, List.take_of_length_le h, List.drop_zero]

theorem sliceRange_eq_nil {α : Type} (xs : List α) (a b : Nat)
    (h : b ≤ a ∨ xs.length ≤ a) : sliceRange xs a b = [] := by
  rw [sliceRange]
  apply List.drop_eq_nil_of_le
  rw [List.length_take]
  omega

theorem sliceRange_append_left {α : Type} (xs ys : List α) (a b : Nat)
    (h : b ≤ xs.length) : sliceRange (xs ++ ys) a b = sliceRange xs a b := by
  rw [sliceRange, sliceRange, List.take_append_eq_append_take]
  have : b - xs.length = 0 := by omega
  rw [this, List.take_zero, List.append_nil]

theorem sliceRange_append_right {α : Type} (xs ys : List α) (a b : Nat)
    (ha : xs.length ≤ a) (hb : xs.length ≤ b) :
    sliceRange (xs ++ ys) a b = sliceRange ys (a - xs.length) (b - xs.length) := by
  rw [sliceRange, sliceRange, List.take_append_eq_append_take,
    List.take_of_length_le hb, List.drop_append_eq_append_drop,
    List.drop_eq_nil_of_le ha, List.nil_append]

theorem sliceRange_append_straddle {α : Type} (xs ys : List α) (a b : Nat)
    (ha : a ≤ xs.length) (hb : xs.length ≤ b) :
    sliceRange (xs ++ ys) a b =
      sliceRange xs a xs.length ++ sliceRange ys 0 (b - xs.length) := by
  rw [sliceRange, sliceRange, sliceRange, List.take_append_eq_append_take,
    List.take_of_length_le hb, List.drop_append_eq_append_drop,
    List.take_of_length_le (Nat.le_refl _), List.drop_zero]
  have h0 : a - xs.length = 0 := by omega
  rw [h0, List.drop_zero]

/-! ## Query correctness against the abstract model -/

namespace SegTree

variable {V M : Type}

/-- The workhorse: on a well-formed tree, `query` returns the fold of the
denoted values over the intersection of the range with the index space.
Needs every §3 law plus preservation of the value identity (`Le`). -/
theorem query_eq_vfold (A : Alg V M) (L : Laws A)
    (Le : ∀ m, A.apply m A.vempty = A.vempty) :
    ∀ t : SegTree V M, WF A t → ∀ r : Range,
      query A t r = vfold A (sliceRange (denote A t) r.start r.stop) := by
  intro t
  induction t with
  | empty =>
    intro _ r
    rw [sliceRange]
    simp [query, denote, vfold_nil]
  | unit v =>
    intro _ r
    by_cases h : r.start ≤ 0 ∧ 0 < r.stop
    · have hs : r.start = 0 := by omega
      rw [query, if_pos h, denote, hs, sliceRange_all _ _ (by simp; omega),
        vfold_cons, vfold_nil, L.vmerge_vempty]
    · rw [query, if_neg h, denote, sliceRange_eq_nil _ _ _ (by simp; omega), vfold_nil]
  | branch s mo v l rt ihl ihr =>
    intro hW r
    obtain ⟨h1, h2, h3, h4, h5, h6⟩ := hW
    have hll : (denote A l).length = s / 2 := by rw [length_denote A l h5, h2]
    have hlr : (denote A rt).length = size rt := length_denote A rt h6
    have hdb : denote A (SegTree.branch s mo v l rt)
        = (denote A l ++ denote A rt).map (A.apply mo) := rfl
    by_cases hfull : r.start ≤ 0 ∧ s ≤ r.stop
    · rw [query, if_pos hfull, hdb]
      have hs0 : r.start = 0 := by omega
      have hlen : ((denote A l ++ denote A rt).map (A.apply mo)).length = s := by
        rw [List.length_map, List.length_append, hll, hlr]; omega
      rw [hs0, sliceRange_all _ _ (by rw [hlen]; exact hfull.2),
        vfold_map_apply A mo (L.apply_vmerge mo) (Le mo),
        vfold_append A L.vmerge_assoc L.vempty_vmerge,
        ← all_denote A L Le l h5, ← all_denote A L Le rt h6, ← h4]
    · rw [query, if_neg hfull, hdb, sliceRange_map,
        vfold_map_apply A mo (L.apply_vmerge mo) (Le mo)]
      congr 1
      by_cases hb : r.stop ≤ s / 2
      · rw [if_pos hb, ihl h5 r, sliceRange_append_left _ _ _ _ (by omega)]
      · by_cases ha : s / 2 ≤ r.start
        · rw [if_neg hb, if_pos ha, ihr h6 ⟨r.start - s / 2, r.stop - s / 2⟩,
            sliceRange_append_right _ _ _ _ (by omega) (by omega), hll]
        · rw [if_neg hb, if_neg ha, ihl h5 ⟨r.start, s / 2⟩,
            ihr h6 ⟨0, r.stop - s / 2⟩,
            ← vfold_append A L.vmerge_assoc L.vempty_vmerge,
            sliceRange_append_straddle _ _ _ _ (by omega) (by omega), hll]

/-! ## Apply correctness against the abstract model -/

theorem WF_apply_aux (A : Alg V M) (L : Laws A) :
    ∀ n, ∀ t : SegTree V M, nodes t ≤ n → WF A t → ∀ (r : Range) (m : M),
      WF A (apply A t r m) := by
  intro n
  induction n with
  | zero => intro t ht; exfalso; cases t <;> simp [nodes] at ht
  | succ n ih =>
    intro t ht hW r m
    cases t with
    | empty => rw [apply_empty]; trivial
    | unit v => rw [apply_unit]; split <;> trivial
    | branch s mo v l rt =>
      obtain ⟨h1, h2, h3, h4, h5, h6⟩ := hW
      simp only [nodes] at ht
      have hnl : nodes (apply_all A l mo) ≤ n := by rw [nodes_apply_all]; omega
      have hnr : nodes (apply_all A rt mo) ≤ n := by rw [nodes_apply_all]; omega
      rw [apply_branch]
      by_cases hfull : r.start ≤ 0 ∧ s ≤ r.stop
      · rw [if_pos hfull]
        exact ⟨h1, h2, h3, by rw [h4, ← L.apply_mmerge], h5, h6⟩
      · rw [if_neg hfull]
        have hWnl : WF A (if r.start < s / 2 then
            apply A (apply_all A l mo) ⟨r.start, min r.stop (s / 2)⟩ m
          else apply_all A l mo) := by
          split
          · exact ih _ hnl (WF_apply_all A L l mo h5) _ _
          · exact WF_apply_all A L l mo h5
        have hWnr : WF A (if s / 2 < r.stop then
            apply A (apply_all A rt mo) ⟨max r.start (s / 2) - s / 2, r.stop - s / 2⟩ m
          else apply_all A rt mo) := by
          split
          · exact ih _ hnr (WF_apply_all A L rt mo h6) _ _
          · exact WF_apply_all A L rt mo h6
        have hsnl : size (if r.start < s / 2 then
            apply A (apply_all A l mo) ⟨r.start, min r.stop (s / 2)⟩ m
          else apply_all A l mo) = size l := by
          split
          · rw [size_apply, size_apply_all]
          · rw [size_apply_all]
        have hsnr : size (if s / 2 < r.stop then
            apply A (apply_all A rt mo) ⟨max r.start (s / 2) - s / 2, r.stop - s / 2⟩ m
          else apply_all A rt mo) = size rt := by
          split
          · rw [size_apply, size_apply_all]
          · rw [size_apply_all]
        exact ⟨by rw [hsnl, hsnr]; omega, by rw [hsnl, h2], h3,
          by rw [L.apply_mempty], hWnl, hWnr⟩

theorem WF_apply (A : Alg V M) (L : Laws A) (t : SegTree V M) (r : Range) (m : M)
    (hW : WF A t) : WF A (apply A t r m) :=
  WF_apply_aux A L (nodes t) t (Nat.le_refl _) hW r m

theorem denote_apply_aux (A : Alg V M) (L : Laws A) :
    ∀ n, ∀ t : SegTree V M, nodes t ≤ n → WF A t → ∀ (r : Range) (m : M),
      denote A (apply A t r m) = applyIn A m r.start r.stop (denote A t) := by
  intro n
  induction n with
  | zero => intro t ht; exfalso; cases t <;> simp [nodes] at ht
  | succ n ih =>
    intro t ht hW r m
    cases t with
    | empty => rw [apply_empty]; rfl
    | unit v =>
      rw [apply_unit]
      by_cases h : r.start ≤ 0 ∧ 0 < r.stop
      · rw [if_pos h]
        show [A.apply m v] = applyIn A m r.start r.stop [v]
        rw [applyIn_cons, applyIn_nil, if_pos (show r.start = 0 ∧ 0 < r.stop by omega)]
      · rw [if_neg h]
        show [v] = applyIn A m r.start r.stop [v]
        rw [applyIn_cons, applyIn_nil, if_neg (show ¬(r.start = 0 ∧ 0 < r.stop) by omega)]
    | branch s mo v l rt =>
      obtain ⟨h1, h2, h3, h4, h5, h6⟩ := hW
      simp only [nodes] at ht
      have hWl' := WF_apply_all A L l mo h5
      have hWr' := WF_apply_all A L rt mo h6
      have hnl : nodes (apply_all A l mo) ≤ n := by rw [nodes_apply_all]; omega
      have hnr : nodes (apply_all A rt mo) ≤ n := by rw [nodes_apply_all]; omega
      have hxl : (denote A (apply_all A l mo)).length = s / 2 := by
        rw [length_denote A _ hWl', size_apply_all, h2]
      have hdenb : denote A (SegTree.branch s mo v l rt)
          = denote A (apply_all A l mo) ++ denote A (apply_all A rt mo) := by
        rw [denote_apply_all A L.apply_mmerge, denote_apply_all A L.apply_mmerge,
          ← List.map_append]
        rfl
      rw [apply_branch]
      by_cases hfull : r.start ≤ 0 ∧ s ≤ r.stop
      · rw [if_pos hfull]
        have hs0 : r.start = 0 := by omega
        have hlen : (denote A (SegTree.branch s mo v l rt)).length = s :=
          length_denote A _ ⟨h1, h2, h3, h4, h5, h6⟩
        rw [hs0, applyIn_full A m _ _ (by rw [hlen]; exact hfull.2)]
        show (denote A l ++ denote A rt).map (A.apply (A.mmerge m mo))
            = (denote A (SegTree.branch s mo v l rt)).map (A.apply m)
        rw [show denote A (SegTree.branch s mo v l rt)
            = (denote A l ++ denote A rt).map (A.apply mo) from rfl, List.map_map]
        congr 1
        funext a
        exact L.apply_mmerge m mo a
      · rw [if_neg hfull, denote_mkBranch A L.apply_mempty, hdenb, applyIn_append]
        congr 1
        · by_cases hl : r.start < s / 2
          · rw [if_pos hl, ih _ hnl hWl' _ m]
            have hmin : min r.stop (s / 2)
                = min r.stop (denote A (apply_all A l mo)).length := by rw [hxl]
            rw [hmin, applyIn_min_length]
          · rw [if_neg hl, applyIn_length_le A m _ _ _ (by rw [hxl]; omega)]
        · by_cases hr : s / 2 < r.stop
          · rw [if_pos hr, ih _ hnr hWr' _ m]
            have hmax : max r.start (s / 2) - s / 2 = r.start - s / 2 := by omega
            rw [hmax, hxl]
          · rw [if_neg hr, applyIn_stop_le A m _ _ _ (by rw [hxl]; omega)]

theorem denote_apply (A : Alg V M) (L : Laws A) (t : SegTree V M) (r : Range) (m : M)
    (hW : WF A t) :
    denote A (apply A t r m) = applyIn A m r.start r.stop (denote A t) :=
  denote_apply_aux A L (nodes t) t (Nat.le_refl _) hW r m

/-! ## Totality of the checked variants -/

theorem applyChecked_branch (A : Alg V M) (s : Nat) (mo : M) (v : V)
    (l rt : SegTree V M) (r : Range) (m : M) :
    applyChecked A (.branch s mo v l rt) r m =
      if r.start ≤ 0 ∧ s ≤ r.stop then
        some (.branch s (A.mmerge m mo) (A.apply m v) l rt)
      else
        (if r.start < s / 2 then
           applyChecked A (apply_all A l mo) ⟨r.start, min r.stop (s / 2)⟩ m
         else some (apply_all A l mo)).bind fun nl =>
        Option.map (fun nr => mkBranch A s nl nr)
          (if s / 2 < r.stop then
             (csub (max r.start (s / 2)) (s / 2)).bind fun a =>
               (csub r.stop (s / 2)).bind fun b =>
                 applyChecked A (apply_all A rt mo) ⟨a, b⟩ m
           else some (apply_all A rt mo)) := by
  rw [applyChecked]

theorem queryChecked_eq (A : Alg V M) :
    ∀ (t : SegTree V M) (r : Range), queryChecked A t r = some (query A t r) := by
  intro t
  induction t with
  | empty => intro r; rfl
  | unit v => intro r; rfl
  | branch s mo v l rt ihl ihr =>
    intro r
    by_cases hfull : r.start ≤ 0 ∧ s ≤ r.stop
    · simp [queryChecked, query, hfull]
    · by_cases hb : r.stop ≤ s / 2
      · simp only [queryChecked, query, hfull, hb, ihl, if_true, if_pos, Option.map_some']
        split <;> rfl
      · by_cases ha : s / 2 ≤ r.start
        · have h1 : s / 2 ≤ r.stop := by omega
          simp [queryChecked, query, hfull, hb, ha, csub, h1, ihr]
          split <;> rfl
        · have h1 : s / 2 ≤ r.stop := by omega
          simp [queryChecked, query, hfull, hb, ha, csub, h1, ihl, ihr]
          split <;> rfl

theorem applyChecked_eq (A : Alg V M) :
    ∀ n, ∀ t : SegTree V M, nodes t ≤ n → ∀ (r : Range) (m : M),
      applyChecked A t r m = some (apply A t r m) := by
  intro n
  induction n with
  | zero => intro t ht; exfalso; cases t <;> simp [nodes] at ht
  | succ n ih =>
    intro t ht r m
    cases t with
    | empty => rw [applyChecked, apply_empty]
    | unit v => rw [applyChecked, apply_unit]
    | branch s mo v l rt =>
      simp only [nodes] at ht
      have hnl : nodes (apply_all A l mo) ≤ n := by rw [nodes_apply_all]; omega
      have hnr : nodes (apply_all A rt mo) ≤ n := by rw [nodes_apply_all]; omega
      rw [applyChecked_branch, apply_branch]
      by_cases hfull : r.start ≤ 0 ∧ s ≤ r.stop
      · rw [if_pos hfull, if_pos hfull]
      · rw [if_neg hfull, if_neg hfull]
        have el : (if r.start < s / 2 then
              applyChecked A (apply_all A l mo) ⟨r.start, min r.stop (s / 2)⟩ m
            else some (apply_all A l mo))
            = some (if r.start < s / 2 then
                apply A (apply_all A l mo) ⟨r.start, min r.stop (s / 2)⟩ m
              else apply_all A l mo) := by
          by_cases hl : r.start < s / 2
          · rw [if_pos hl, if_pos hl, ih _ hnl _ m]
          · rw [if_neg hl, if_neg hl]
        have er : (if s / 2 < r.stop then
              (csub (max r.start (s / 2)) (s / 2)).bind fun a =>
                (csub r.stop (s / 2)).bind fun b =>
                  applyChecked A (apply_all A rt mo) ⟨a, b⟩ m
            else some (apply_all A rt mo))
            = some (if s / 2 < r.stop then
                apply A (apply_all A rt mo) ⟨max r.start (s / 2) - s / 2, r.stop - s / 2⟩ m
              else apply_all A rt mo) := by
          by_cases hr : s / 2 < r.stop
          · rw [if_pos hr, if_pos hr, csub, if_pos (Nat.le_max_right _ _), csub,
              if_pos (by omega : s / 2 ≤ r.stop)]
            show applyChecked A (apply_all A rt mo)
                ⟨max r.start (s / 2) - s / 2, r.stop - s / 2⟩ m = _
            rw [ih _ hnr _ m]
          · rw [if_neg hr, if_neg hr]
        rw [el, er]
        rfl

/-- C3 (Totality): on every tree and every range — empty, inverted, or out
of bounds — `query` and `apply` with all `usize` subtractions checked
(`queryChecked`, `applyChecked`) succeed and agree with the total
functions, so no midpoint subtraction underflows and no operation
panics; `size` is a total projection by definition. -/
theorem ops_total (A : Alg V M) (t : SegTree V M) (r : Range) (m : M) :
    queryChecked A t r = some (query A t r) ∧
      applyChecked A t r m = some (apply A t r m) :=
  ⟨queryChecked_eq A t r, applyChecked_eq A (nodes t) t (Nat.le_refl _) r m⟩

/-! ## Structural invariant lemmas -/

theorem SizeInv_apply_all (A : Alg V M) (t : SegTree V M) (m : M)
    (h : SizeInv t) : SizeInv (apply_all A t m) := by
  cases t with
  | empty => trivial
  | unit v => trivial
  | branch s mo v l r => exact h

theorem SizeInv_build_inner (A : Alg V M) (init : Nat → V) :
    ∀ len offset, SizeInv (build_inner A offset len init : SegTree V M) := by
  intro len
  induction len using Nat.strong_induction_on with
  | _ len ih =>
    intro offset
    match len with
    | 0 => rw [build_inner_zero]; trivial
    | 1 => rw [build_inner_one]; trivial
    | (n + 2) =>
      rw [build_inner_ge_two]
      refine ⟨?_, ?_, by omega, ih _ (by omega) _, ih _ (by omega) _⟩
      · simp only [size_mkBranch, size_build_inner]; omega
      · simp only [size_mkBranch, size_build_inner]

theorem AllMempty_build_inner (A : Alg V M) (init : Nat → V) :
    ∀ len offset, AllMempty A (build_inner A offset len init) := by
  intro len
  induction len using Nat.strong_induction_on with
  | _ len ih =>
    intro offset
    match len with
    | 0 => rw [build_inner_zero]; trivial
    | 1 => rw [build_inner_one]; trivial
    | (n + 2) =>
      rw [build_inner_ge_two]
      exact ⟨rfl, ih _ (by omega) _, ih _ (by omega) _⟩

theorem SizeInv_apply_aux (A : Alg V M) :
    ∀ n, ∀ t : SegTree V M, nodes t ≤ n → SizeInv t → ∀ (r : Range) (m : M),
      SizeInv (apply A t r m) := by
  intro n
  induction n with
  | zero => intro t ht; exfalso; cases t <;> simp [nodes] at ht
  | succ n ih =>
    intro t ht hI r m
    cases t with
    | empty => rw [apply_empty]; trivial
    | unit v => rw [apply_unit]; split <;> trivial
    | branch s mo v l rt =>
      obtain ⟨h1, h2, h3, h4, h5⟩ := hI
      simp only [nodes] at ht
      have hnl : nodes (apply_all A l mo) ≤ n := by rw [nodes_apply_all]; omega
      have hnr : nodes (apply_all A rt mo) ≤ n := by rw [nodes_apply_all]; omega
      rw [apply_branch]
      by_cases hfull : r.start ≤ 0 ∧ s ≤ r.stop
      · rw [if_pos hfull]
        exact ⟨h1, h2, h3, h4, h5⟩
      · rw [if_neg hfull]
        have hInl : SizeInv (if r.start < s / 2 then
            apply A (apply_all A l mo) ⟨r.start, min r.stop (s / 2)⟩ m
          else apply_all A l mo) := by
          split
          · exact ih _ hnl (SizeInv_apply_all A l mo h4) _ _
          · exact SizeInv_apply_all A l mo h4
        have hInr : SizeInv (if s / 2 < r.stop then
            apply A (apply_all A rt mo) ⟨max r.start (s / 2) - s / 2, r.stop - s / 2⟩ m
          else apply_all A rt mo) := by
          split
          · exact ih _ hnr (SizeInv_apply_all A rt mo h5) _ _
          · exact SizeInv_apply_all A rt mo h5
        have hsnl : size (if r.start < s / 2 then
            apply A (apply_all A l mo) ⟨r.start, min r.stop (s / 2)⟩ m
          else apply_all A l mo) = size l := by
          split
          · rw [size_apply, size_apply_all]
          · rw [size_apply_all]
        have hsnr : size (if s / 2 < r.stop then
            apply A (apply_all A rt mo) ⟨max r.start (s / 2) - s / 2, r.stop - s / 2⟩ m
          else apply_all A rt mo) = size rt := by
          split
          · rw [size_apply, size_apply_all]
          · rw [size_apply_all]
        exact ⟨by rw [hsnl, hsnr]; omega, by rw [hsnl, h2], h3, hInl, hInr⟩

/-- Degenerate queries return the identity, provided modifiers preserve the
value identity: by induction, a degenerate range stays degenerate in each
recursive call, so every contribution is `vempty` wrapped in pending
modifiers. -/
theorem query_degenerate (A : Alg V M)
    (Le : ∀ m, A.apply m A.vempty = A.vempty) :
    ∀ t : SegTree V M, WF A t → ∀ r : Range,
      r.stop ≤ r.start ∨ size t ≤ r.start → query A t r = A.vempty := by
  intro t
  induction t with
  | empty => intro _ r _; rfl
  | unit v =>
    intro _ r h
    simp only [size] at h
    rw [query, if_neg (by omega)]
  | branch s mo v l rt ihl ihr =>
    intro hW r h
    obtain ⟨h1, h2, h3, _, h5, h6⟩ := hW
    simp only [size] at h
    have hfull : ¬(r.start ≤ 0 ∧ s ≤ r.stop) := by omega
    rw [query, if_neg hfull]
    by_cases hb : r.stop ≤ s / 2
    · rw [if_pos hb, ihl h5 r (by rw [h2]; omega)]
      exact Le mo
    · by_cases ha : s / 2 ≤ r.start
      · have hrt : size rt = s - s / 2 := by omega
        rw [if_neg hb, if_pos ha,
          ihr h6 ⟨r.start - s / 2, r.stop - s / 2⟩
            (by show r.stop - s / 2 ≤ r.start - s / 2 ∨ size rt ≤ r.start - s / 2
                rw [hrt]; omega)]
        exact Le mo
      · exfalso; omega

end SegTree

/-! ## Claims

One theorem per claim of the specification, with witnesses at concrete
inputs for the theorems that carry hypotheses, and counterexamples for the
claims the code refutes as stated. -/

/-- C1 (amended): lazy-propagation correctness.  For every algebra
satisfying the §3 laws and additionally mapping the value identity to
itself under every modifier (`Le`), the result of building, applying two
range modifiers, and querying any range equals the first-principles
value: apply at each position the modifiers of the ranges covering it in
composition order (`applyIn` twice), then fold `merge` over the positions
of the query range intersected with the index space.  Without `Le` the
claim fails for query ranges whose intersection with the index space is
empty (see the counterexample). -/
theorem lazy_correct {V M : Type} (A : Alg V M) (L : Laws A)
    (Le : ∀ m, A.apply m A.vempty = A.vempty)
    (n : Nat) (f : Nat → V) (r1 r2 q : Range) (m1 m2 : M) :
    SegTree.query A
        (SegTree.apply A (SegTree.apply A (SegTree.build A n f) r1 m1) r2 m2) q
      = vfold A (sliceRange
          (applyIn A m2 r2.start r2.stop
            (applyIn A m1 r1.start r1.stop ((List.range n).map f)))
          q.start q.stop) := by
  have h0 := SegTree.WF_build A L n f
  have h1 := SegTree.WF_apply A L _ r1 m1 h0
  have h2 := SegTree.WF_apply A L _ r2 m2 h1
  rw [SegTree.query_eq_vfold A L Le _ h2 q,
    SegTree.denote_apply A L _ r2 m2 h1,
    SegTree.denote_apply A L _ r1 m1 h0,
    SegTree.denote_build A L n f]

theorem lazy_correct_witness :
    SegTree.query sumScaleAlg
        (SegTree.apply sumScaleAlg
          (SegTree.apply sumScaleAlg (SegTree.build sumScaleAlg 5 (fun i => i)) ⟨1, 4⟩ 2)
          ⟨2, 6⟩ 3) ⟨0, 5⟩
      = vfold sumScaleAlg (sliceRange
          (applyIn sumScaleAlg 3 2 6
            (applyIn sumScaleAlg 2 1 4 ((List.range 5).map (fun i => i))))
          0 5) :=
  lazy_correct sumScaleAlg sumScaleAlg_laws sumScaleAlg_apply_vempty 5 (fun i => i)
    ⟨1, 4⟩ ⟨2, 6⟩ ⟨0, 5⟩ 2 3

/-- C1 counterexample: the claim as stated (for any query range) is false
for a lawful algebra whose modifiers move the value identity.  With
values (Nat, max, 0) and additive modifiers, after applying +5 to the
whole range and +0 to the whole range, querying the fully-out-of-bounds
range from 3 to 4 returns 5, while the first-principles fold over the
empty intersection is 0. -/
theorem lazy_correct_counterexample :
    Laws maxAddAlg ∧
      SegTree.query maxAddAlg
          (SegTree.apply maxAddAlg
            (SegTree.apply maxAddAlg (SegTree.build maxAddAlg 2 (fun _ => 0)) ⟨0, 2⟩ 5)
            ⟨0, 2⟩ 0) ⟨3, 4⟩
        ≠ vfold maxAddAlg (sliceRange
            (applyIn maxAddAlg 0 0 2
              (applyIn maxAddAlg 5 0 2 ((List.range 2).map (fun _ => 0))))
            3 4) := by
  refine ⟨maxAddAlg_laws, ?_⟩
  have e0 : SegTree.build maxAddAlg 2 (fun _ => 0)
      = .branch 2 0 0 (.unit 0) (.unit 0) := by
    rw [SegTree.build, SegTree.build_inner_ge_two]
    simp [SegTree.build_inner_one, SegTree.mkBranch, SegTree.all, maxAddAlg]
  have e1 : SegTree.apply maxAddAlg (.branch 2 0 0 (.unit 0) (.unit 0)) ⟨0, 2⟩ 5
      = .branch 2 5 5 (.unit 0) (.unit 0) := by
    rw [SegTree.apply_branch, if_pos (by decide : (0:Nat) ≤ 0 ∧ 2 ≤ 2)]
    simp [maxAddAlg]
  have e2 : SegTree.apply maxAddAlg (.branch 2 5 5 (.unit 0) (.unit 0)) ⟨0, 2⟩ 0
      = .branch 2 5 5 (.unit 0) (.unit 0) := by
    rw [SegTree.apply_branch, if_pos (by decide : (0:Nat) ≤ 0 ∧ 2 ≤ 2)]
    simp [maxAddAlg]
  rw [e0, e1, e2]
  decide

/-- C2: build/full-query agreement with a reference fold.  Assuming only
that the value merge is associative with identity `V.empty`,
`build(n, f).query(0..n)` equals the fold of `merge` over
`map(f, 0..n)` starting from the identity; for `n = 0` the right-hand
side is `V.empty` by definition. -/
theorem build_query_fold {V M : Type} (A : Alg V M)
    (hassoc : ∀ a b c, A.vmerge (A.vmerge a b) c = A.vmerge a (A.vmerge b c))
    (hidl : ∀ a, A.vmerge A.vempty a = a)
    (hidr : ∀ a, A.vmerge a A.vempty = a)
    (n : Nat) (f : Nat → V) :
    SegTree.query A (SegTree.build A n f) ⟨0, n⟩ = vfold A ((List.range n).map f) := by
  have hq := SegTree.query_full_range A (SegTree.build A n f)
  rw [SegTree.size_build] at hq
  rw [hq, SegTree.build, SegTree.all_build_inner A hassoc hidl hidr f n 0,
    List.range_eq_range']

theorem build_query_fold_witness :
    SegTree.query sumScaleAlg (SegTree.build sumScaleAlg 5 (fun i => i + 1)) ⟨0, 5⟩
      = vfold sumScaleAlg ((List.range 5).map (fun i => i + 1)) :=
  build_query_fold sumScaleAlg sumScaleAlg_laws.vmerge_assoc
    sumScaleAlg_laws.vempty_vmerge sumScaleAlg_laws.vmerge_vempty 5 (fun i => i + 1)

/-- C4 (amended): degenerate-query identity.  For every well-formed tree
(the invariant that holds for trees built by `build` and any sequence of
`apply` calls), provided every modifier maps the value identity to itself
(`Le`), a query over an empty range or over a range fully outside the
index space returns exactly the value identity.  Without `Le` the claim
fails on trees with a non-identity pending modifier (see the
counterexample). -/
theorem degenerate_query_empty {V M : Type} (A : Alg V M)
    (Le : ∀ m, A.apply m A.vempty = A.vempty)
    (t : SegTree V M) (hW : SegTree.WF A t) (r : Range)
    (h : r.stop ≤ r.start ∨ SegTree.size t ≤ r.start) :
    SegTree.query A t r = A.vempty :=
  SegTree.query_degenerate A Le t hW r h

theorem degenerate_query_empty_witness :
    SegTree.query sumScaleAlg
        (SegTree.apply sumScaleAlg (SegTree.build sumScaleAlg 3 (fun i => i + 1)) ⟨0, 2⟩ 2)
        ⟨5, 7⟩
      = sumScaleAlg.vempty :=
  degenerate_query_empty sumScaleAlg sumScaleAlg_apply_vempty _
    (SegTree.WF_apply sumScaleAlg sumScaleAlg_laws _ ⟨0, 2⟩ 2
      (SegTree.WF_build sumScaleAlg sumScaleAlg_laws 3 (fun i => i + 1)))
    ⟨5, 7⟩
    (Or.inr (by rw [SegTree.size_apply, SegTree.size_build]; decide))

/-- C4 counterexample: with the lawful algebra of maxima under additive
shifts, the tree obtained by building two zero positions and applying +5
to the whole range carries pending modifier 5; querying the
fully-out-of-bounds range from 3 to 4 returns 5, not `V::empty() = 0`. -/
theorem degenerate_query_counterexample :
    Laws maxAddAlg ∧
      SegTree.query maxAddAlg
          (SegTree.apply maxAddAlg (SegTree.build maxAddAlg 2 (fun _ => 0)) ⟨0, 2⟩ 5)
          ⟨3, 4⟩
        ≠ maxAddAlg.vempty := by
  refine ⟨maxAddAlg_laws, ?_⟩
  have e0 : SegTree.build maxAddAlg 2 (fun _ => 0)
      = .branch 2 0 0 (.unit 0) (.unit 0) := by
    rw [SegTree.build, SegTree.build_inner_ge_two]
    simp [SegTree.build_inner_one, SegTree.mkBranch, SegTree.all, maxAddAlg]
  have e1 : SegTree.apply maxAddAlg (.branch 2 0 0 (.unit 0) (.unit 0)) ⟨0, 2⟩ 5
      = .branch 2 5 5 (.unit 0) (.unit 0) := by
    rw [SegTree.apply_branch, if_pos (by decide : (0:Nat) ≤ 0 ∧ 2 ≤ 2)]
    simp [maxAddAlg]
  rw [e0, e1]
  decide

/-- C5 (amended): the Query algorithm on a Branch, as the code implements
it: a range fully covering the index space returns the stored aggregate
directly; otherwise the node's pending modifier is applied to the result
of each of the three partial cases — entirely-left descent,
entirely-right descent (translated by the midpoint), and the straddling
merge — not only to the straddling merge as §4.4 words it. -/
theorem query_branch_cases {V M : Type} (A : Alg V M) (s : Nat) (mo : M) (v : V)
    (l rt : SegTree V M) (r : Range) :
    SegTree.query A (.branch s mo v l rt) r =
      if r.start ≤ 0 ∧ s ≤ r.stop then v
      else if r.stop ≤ s / 2 then A.apply mo (SegTree.query A l r)
      else if s / 2 ≤ r.start then
        A.apply mo (SegTree.query A rt ⟨r.start - s / 2, r.stop - s / 2⟩)
      else
        A.apply mo (A.vmerge (SegTree.query A l ⟨r.start, s / 2⟩)
          (SegTree.query A rt ⟨0, r.stop - s / 2⟩)) := by
  rw [SegTree.query]
  split_ifs <;> rfl

/-- C5 counterexample: the code's `query` differs from the §4.4 wording
(`querySpec`, which applies the pending modifier only in the straddling
case) on a Branch with pending modifier 5 when the range from 0 to 1
descends entirely into the left child: the code returns 5, the spec's
wording returns 0. -/
theorem query_spec_counterexample :
    Laws maxAddAlg ∧
      SegTree.query maxAddAlg
          (SegTree.apply maxAddAlg (SegTree.build maxAddAlg 2 (fun _ => 0)) ⟨0, 2⟩ 5)
          ⟨0, 1⟩
        ≠ SegTree.querySpec maxAddAlg
          (SegTree.apply maxAddAlg (SegTree.build maxAddAlg 2 (fun _ => 0)) ⟨0, 2⟩ 5)
          ⟨0, 1⟩ := by
  refine ⟨maxAddAlg_laws, ?_⟩
  have e0 : SegTree.build maxAddAlg 2 (fun _ => 0)
      = .branch 2 0 0 (.unit 0) (.unit 0) := by
    rw [SegTree.build, SegTree.build_inner_ge_two]
    simp [SegTree.build_inner_one, SegTree.mkBranch, SegTree.all, maxAddAlg]
  have e1 : SegTree.apply maxAddAlg (.branch 2 0 0 (.unit 0) (.unit 0)) ⟨0, 2⟩ 5
      = .branch 2 5 5 (.unit 0) (.unit 0) := by
    rw [SegTree.apply_branch, if_pos (by decide : (0:Nat) ≤ 0 ∧ 2 ≤ 2)]
    simp [maxAddAlg]
  rw [e0, e1]
  decide

/-- C7 (amended): degenerate-range apply is a no-op on every query,
provided every modifier maps the value identity to itself (`Le`).  For a
well-formed tree and a range that is empty/inverted or fully outside the
index space, the tree returned by `apply` answers every query exactly
like the original.  Without `Le` the claim fails for out-of-bounds query
ranges, because the no-op `apply` still pushes the pending modifier one
level down and resets it (see the counterexample). -/
theorem degenerate_apply_noop {V M : Type} (A : Alg V M) (L : Laws A)
    (Le : ∀ m, A.apply m A.vempty = A.vempty)
    (t : SegTree V M) (hW : SegTree.WF A t) (r : Range) (m : M)
    (h : r.stop ≤ r.start ∨ SegTree.size t ≤ r.start) (q : Range) :
    SegTree.query A (SegTree.apply A t r m) q = SegTree.query A t q := by
  rw [SegTree.query_eq_vfold A L Le _ (SegTree.WF_apply A L t r m hW) q,
    SegTree.query_eq_vfold A L Le t hW q,
    SegTree.denote_apply A L t r m hW]
  have hid : applyIn A m r.start r.stop (SegTree.denote A t) = SegTree.denote A t := by
    rcases h with h | h
    · exact applyIn_stop_le A m _ _ _ h
    · exact applyIn_length_le A m _ _ _ (by rw [SegTree.length_denote A t hW]; exact h)
  rw [hid]

theorem degenerate_apply_noop_witness :
    SegTree.query sumScaleAlg
        (SegTree.apply sumScaleAlg (SegTree.build sumScaleAlg 3 (fun i => i + 1)) ⟨2, 2⟩ 7)
        ⟨0, 3⟩
      = SegTree.query sumScaleAlg (SegTree.build sumScaleAlg 3 (fun i => i + 1)) ⟨0, 3⟩ :=
  degenerate_apply_noop sumScaleAlg sumScaleAlg_laws sumScaleAlg_apply_vempty _
    (SegTree.WF_build sumScaleAlg sumScaleAlg_laws 3 (fun i => i + 1)) ⟨2, 2⟩ 7
    (Or.inl (by decide)) ⟨0, 3⟩

/-- C7 counterexample: with the lawful max/additive algebra, applying any
modifier over the empty range from 0 to 0 to a tree with pending
modifier 5 changes the answer of the out-of-bounds query from 3 to 4
from 5 to 0, so the degenerate apply is not a no-op for every query
range. -/
theorem degenerate_apply_counterexample :
    Laws maxAddAlg ∧
      SegTree.query maxAddAlg
          (SegTree.apply maxAddAlg
            (SegTree.apply maxAddAlg (SegTree.build maxAddAlg 2 (fun _ => 0)) ⟨0, 2⟩ 5)
            ⟨0, 0⟩ 7) ⟨3, 4⟩
        ≠ SegTree.query maxAddAlg
          (SegTree.apply maxAddAlg (SegTree.build maxAddAlg 2 (fun _ => 0)) ⟨0, 2⟩ 5)
          ⟨3, 4⟩ := by
  refine ⟨maxAddAlg_laws, ?_⟩
  have e0 : SegTree.build maxAddAlg 2 (fun _ => 0)
      = .branch 2 0 0 (.unit 0) (.unit 0) := by
    rw [SegTree.build, SegTree.build_inner_ge_two]
    simp [SegTree.build_inner_one, SegTree.mkBranch, SegTree.all, maxAddAlg]
  have e1 : SegTree.apply maxAddAlg (.branch 2 0 0 (.unit 0) (.unit 0)) ⟨0, 2⟩ 5
      = .branch 2 5 5 (.unit 0) (.unit 0) := by
    rw [SegTree.apply_branch, if_pos (by decide : (0:Nat) ≤ 0 ∧ 2 ≤ 2)]
    simp [maxAddAlg]
  have e2 : SegTree.apply maxAddAlg (.branch 2 5 5 (.unit 0) (.unit 0)) ⟨0, 0⟩ 7
      = .branch 2 0 5 (.unit 5) (.unit 5) := by
    rw [SegTree.apply_branch, if_neg (by decide)]
    simp [SegTree.apply_all, SegTree.apply_unit, SegTree.mkBranch, SegTree.all, maxAddAlg]
  rw [e0, e1, e2]
  decide

/-- C8 (amended): identity-modifier apply is a no-op on every query,
provided every modifier maps the value identity to itself (`Le`): for a
well-formed tree, `apply(r, M::empty())` answers every query exactly like
the original tree.  Without `Le` the claim fails for out-of-bounds query
ranges when the apply takes the partial path and pushes the pending
modifier down (see the counterexample). -/
theorem identity_apply_noop {V M : Type} (A : Alg V M) (L : Laws A)
    (Le : ∀ m, A.apply m A.vempty = A.vempty)
    (t : SegTree V M) (hW : SegTree.WF A t) (r q : Range) :
    SegTree.query A (SegTree.apply A t r A.mempty) q = SegTree.query A t q := by
  rw [SegTree.query_eq_vfold A L Le _ (SegTree.WF_apply A L t r A.mempty hW) q,
    SegTree.query_eq_vfold A L Le t hW q,
    SegTree.denote_apply A L t r A.mempty hW,
    applyIn_mempty A L.apply_mempty _ _ _]

theorem identity_apply_noop_witness :
    SegTree.query sumScaleAlg
        (SegTree.apply sumScaleAlg (SegTree.build sumScaleAlg 3 (fun i => i + 1))
          ⟨1, 3⟩ sumScaleAlg.mempty)
        ⟨0, 2⟩
      = SegTree.query sumScaleAlg (SegTree.build sumScaleAlg 3 (fun i => i + 1)) ⟨0, 2⟩ :=
  identity_apply_noop sumScaleAlg sumScaleAlg_laws sumScaleAlg_apply_vempty _
    (SegTree.WF_build sumScaleAlg sumScaleAlg_laws 3 (fun i => i + 1)) ⟨1, 3⟩ ⟨0, 2⟩

/-- C8 counterexample: with the lawful max/additive algebra, applying the
identity modifier over the range from 0 to 1 to a tree with pending
modifier 5 takes the partial path, pushes the 5 down, and changes the
out-of-bounds query from 3 to 4 from 5 to 0. -/
theorem identity_apply_counterexample :
    Laws maxAddAlg ∧
      SegTree.query maxAddAlg
          (SegTree.apply maxAddAlg
            (SegTree.apply maxAddAlg (SegTree.build maxAddAlg 2 (fun _ => 0)) ⟨0, 2⟩ 5)
            ⟨0, 1⟩ maxAddAlg.mempty) ⟨3, 4⟩
        ≠ SegTree.query maxAddAlg
          (SegTree.apply maxAddAlg (SegTree.build maxAddAlg 2 (fun _ => 0)) ⟨0, 2⟩ 5)
          ⟨3, 4⟩ := by
  refine ⟨maxAddAlg_laws, ?_⟩
  have e0 : SegTree.build maxAddAlg 2 (fun _ => 0)
      = .branch 2 0 0 (.unit 0) (.unit 0) := by
    rw [SegTree.build, SegTree.build_inner_ge_two]
    simp [SegTree.build_inner_one, SegTree.mkBranch, SegTree.all, maxAddAlg]
  have e1 : SegTree.apply maxAddAlg (.branch 2 0 0 (.unit 0) (.unit 0)) ⟨0, 2⟩ 5
      = .branch 2 5 5 (.unit 0) (.unit 0) := by
    rw [SegTree.apply_branch, if_pos (by decide : (0:Nat) ≤ 0 ∧ 2 ≤ 2)]
    simp [maxAddAlg]
  have e2 : SegTree.apply maxAddAlg (.branch 2 5 5 (.unit 0) (.unit 0)) ⟨0, 1⟩
      maxAddAlg.mempty = .branch 2 0 5 (.unit 5) (.unit 5) := by
    rw [SegTree.apply_branch, if_neg (by decide)]
    simp [SegTree.apply_all, SegTree.apply_unit, SegTree.mkBranch, SegTree.all, maxAddAlg]
  rw [e0, e1, e2]
  decide

/-- C9: structural invariants.  Trees produced by `build` satisfy the size
invariants (Branch size is the sum of the children's sizes, the left
child holds `size / 2`, Branch size is at least 2) and carry identity
pending modifiers everywhere; the size invariants are preserved by every
`apply`; and a Branch rebuilt by a non-full-cover `apply` carries an
identity pending modifier. -/
theorem structural_invariants {V M : Type} (A : Alg V M) (n : Nat) (f : Nat → V)
    (t : SegTree V M) (r : Range) (m : M)
    (s : Nat) (mo : M) (v : V) (l rt : SegTree V M)
    (ht : SegTree.SizeInv t) (hb : ¬(r.start ≤ 0 ∧ s ≤ r.stop)) :
    SegTree.SizeInv (SegTree.build A n f)
      ∧ SegTree.AllMempty A (SegTree.build A n f)
      ∧ SegTree.SizeInv (SegTree.apply A t r m)
      ∧ ∃ v2 nl nr,
          SegTree.apply A (.branch s mo v l rt) r m = .branch s A.mempty v2 nl nr := by
  refine ⟨SegTree.SizeInv_build_inner A f n 0, SegTree.AllMempty_build_inner A f n 0,
    SegTree.SizeInv_apply_aux A (SegTree.nodes t) t (Nat.le_refl _) ht r m, ?_⟩
  rw [SegTree.apply_branch, if_neg hb]
  exact ⟨_, _, _, rfl⟩

theorem structural_invariants_witness :
    SegTree.SizeInv (SegTree.build sumScaleAlg 4 (fun i => i))
      ∧ SegTree.AllMempty sumScaleAlg (SegTree.build sumScaleAlg 4 (fun i => i))
      ∧ SegTree.SizeInv
          (SegTree.apply sumScaleAlg
            (SegTree.branch 2 3 6 (SegTree.unit 1) (SegTree.unit 2)) ⟨0, 1⟩ 7)
      ∧ ∃ v2 nl nr,
          SegTree.apply sumScaleAlg
              (SegTree.branch 2 3 6 (SegTree.unit 1) (SegTree.unit 2)) ⟨0, 1⟩ 7
            = SegTree.branch 2 sumScaleAlg.mempty v2 nl nr :=
  structural_invariants sumScaleAlg 4 (fun i => i)
    (SegTree.branch 2 3 6 (SegTree.unit 1) (SegTree.unit 2)) ⟨0, 1⟩ 7
    2 3 6 (SegTree.unit 1) (SegTree.unit 2)
    ⟨rfl, rfl, by decide, trivial, trivial⟩ (by decide)

/-- C10 (implicit): in `query` on a Branch the range does not fully cover,
the node's pending modifier is applied to the result of every one of the
three partial cases — also on an entirely-left or entirely-right
single-child descent, so a pending modifier is never dropped. -/
theorem query_modifier_all_cases {V M : Type} (A : Alg V M) (s : Nat) (mo : M)
    (v : V) (l rt : SegTree V M) (r : Range)
    (h : ¬(r.start ≤ 0 ∧ s ≤ r.stop)) :
    SegTree.query A (.branch s mo v l rt) r
      = A.apply mo
          (if r.stop ≤ s / 2 then SegTree.query A l r
           else if s / 2 ≤ r.start then
             SegTree.query A rt ⟨r.start - s / 2, r.stop - s / 2⟩
           else A.vmerge (SegTree.query A l ⟨r.start, s / 2⟩)
             (SegTree.query A rt ⟨0, r.stop - s / 2⟩)) := by
  rw [SegTree.query, if_neg h]

theorem query_modifier_all_cases_witness :
    SegTree.query maxAddAlg
        (SegTree.branch 2 5 5 (SegTree.unit 0) (SegTree.unit 0)) ⟨0, 1⟩ = 5 :=
  (query_modifier_all_cases maxAddAlg 2 5 5 (SegTree.unit 0) (SegTree.unit 0) ⟨0, 1⟩
    (by decide)).trans (by decide)
